import Mathlib

/-!
Verification of the fizban incremental indexing and retrieval pipeline.

Texts are modelled as lists of characters (`Text`), character offsets as
naturals, and the SQLite stores as explicit pure states.  Each definition
mirrors one function of the source; floats (distances, timestamps) are
modelled by rationals, and the opaque collaborators (SHA-256 hashing, the
embedding model, the vector backend's nearest-neighbour reply) are passed
in as explicit function or list parameters, as the spec treats them as
external collaborators.
-/

abbrev Text := List Char

/-- Python slice `t[s:e]` for non-negative bounds: characters at offsets
`s ≤ i < min e t.length`. -/
def pySlice (t : Text) (s e : Nat) : Text := (t.take e).drop s

/-- Does `sub` occur in `t` starting at offset `i`?  (True exactly when
`t[i : i+len(sub)] = sub`, which forces `i + sub.length ≤ t.length` for a
non-empty `sub`.) -/
def matchesAt (t sub : Text) (i : Nat) : Bool :=
  pySlice t i (i + sub.length) == sub

/-- Largest `p ≤ n` with `s ≤ p` and `matchesAt t sub p`, searching downward. -/
def rfindDown (t sub : Text) (s : Nat) : Nat → Option Nat
  | 0 => if s = 0 && matchesAt t sub 0 then some 0 else none
  | n + 1 =>
    if s ≤ n + 1 && matchesAt t sub (n + 1) then some (n + 1)
    else rfindDown t sub s n

/-- Python `t.rfind(sub, s, e)`: the highest offset of an occurrence of `sub`
lying entirely inside the slice `t[s:e]`, `none` when there is none (Python
returns `-1`). -/
def rfind (t sub : Text) (s e : Nat) : Option Nat :=
  if sub.length ≤ min e t.length then rfindDown t sub s (min e t.length - sub.length)
  else none

/-- The paragraph-break separator `"\n\n"` of `chunk_text`. -/
def nl2 : Text := ['\n', '\n']

/-- The sentence separators of `chunk_text`, in the source's iteration order:
`". "`, `".\n"`, `"! "`, `"? "`. -/
def sepsList : List Text := [['.', ' '], ['.', '\n'], ['!', ' '], ['?', ' ']]

/-- The sentence-break scan of `chunk_text`: for each separator in order, if
its last occurrence in `[start, endW)` lies past the threshold `thr`, cut
there (position plus separator length) and stop; otherwise keep `endW`. -/
def sentenceEnd (t : Text) (start endW thr : Nat) : List Text → Nat
  | [] => endW
  | sep :: rest =>
    match rfind t sep start endW with
    | some p => if thr < p then p + sep.length else sentenceEnd t start endW thr rest
    | none => sentenceEnd t start endW thr rest

/-- The end boundary `chunk_text` chooses for the window at `start`: the hard
cut `min (start + chunk_size) t.length`, moved earlier to a paragraph break
(`"\n\n"`) past the midpoint when one exists, else to the first sentence
separator (in the fixed order) whose last occurrence is past the midpoint. -/
def computeEnd (t : Text) (chunk_size start : Nat) : Nat :=
  if min (start + chunk_size) t.length < t.length then
    match rfind t nl2 start (min (start + chunk_size) t.length) with
    | some p =>
      if start + chunk_size / 2 < p then p + 2
      else
        sentenceEnd t start (min (start + chunk_size) t.length)
          (start + chunk_size / 2) sepsList
    | none =>
      sentenceEnd t start (min (start + chunk_size) t.length)
        (start + chunk_size / 2) sepsList
  else min (start + chunk_size) t.length

/-- `chunk_text`'s trailing-tail handling: replace the last emitted chunk
`(c, ls, le)` by `(t[ls:], ls, t.length)`. -/
def extendLast (t : Text) (chunks : List (Text × Nat × Nat)) : List (Text × Nat × Nat) :=
  match chunks.getLast? with
  | none => chunks
  | some (_, ls, _) => chunks.dropLast ++ [(t.drop ls, ls, t.length)]

/-- Cursor advance of `chunk_text`: `new_start = end − overlap`, replaced by
`end` itself whenever that fails to move past the previous cursor. -/
def advanceCursor (chunk_overlap start e : Nat) : Nat :=
  if e - chunk_overlap ≤ start then e else e - chunk_overlap

/-- The chunk `chunk_text` appends for the window at `start`. -/
def emitChunk (t : Text) (chunk_size start : Nat) : Text × Nat × Nat :=
  (pySlice t start (computeEnd t chunk_size start), start, computeEnd t chunk_size start)

/-- The `while` loop of `chunk_text`, with explicit fuel (`none` means the
fuel ran out, which with fuel `t.length + 1` only happens when the Python
loop would not terminate). -/
def chunkLoop (t : Text) (chunk_size chunk_overlap : Nat) :
    Nat → Nat → List (Text × Nat × Nat) → Option (List (Text × Nat × Nat))
  | 0, _, _ => none
  | fuel + 1, start, chunks =>
    if start < t.length then
      if t.length ≤ advanceCursor chunk_overlap start (computeEnd t chunk_size start) then
        some (chunks ++ [emitChunk t chunk_size start])
      else if t.length - advanceCursor chunk_overlap start (computeEnd t chunk_size start)
          < chunk_overlap then
        some (extendLast t (chunks ++ [emitChunk t chunk_size start]))
      else
        chunkLoop t chunk_size chunk_overlap fuel
          (advanceCursor chunk_overlap start (computeEnd t chunk_size start))
          (chunks ++ [emitChunk t chunk_size start])
    else some chunks

/-- `chunk_text(text, chunk_size, chunk_overlap)` from `indexer.py`: split
text into overlapping chunks `(content, start_char, end_char)`. -/
def chunk_text (t : Text) (chunk_size chunk_overlap : Nat) :
    Option (List (Text × Nat × Nat)) :=
  if t.isEmpty then some []
  else if t.length ≤ chunk_size then some [(t, 0, t.length)]
  else chunkLoop t chunk_size chunk_overlap (t.length + 1) 0 []

/-! ### Basic facts about slices and `rfind` -/

theorem pySlice_length (t : Text) (s e : Nat) :
    (pySlice t s e).length = min e t.length - s := by
  simp [pySlice]

theorem pySlice_all (t : Text) (s : Nat) : pySlice t s t.length = t.drop s := by
  simp [pySlice]

theorem pySlice_ne_nil {t : Text} {s e : Nat} (hse : s < e) (hst : s < t.length) :
    pySlice t s e ≠ [] := by
  intro h
  have := congrArg List.length h
  rw [pySlice_length] at this
  simp at this
  omega

theorem rfindDown_sound {t sub : Text} {s : Nat} :
    ∀ {n p : Nat}, rfindDown t sub s n = some p →
      s ≤ p ∧ p ≤ n ∧ matchesAt t sub p = true := by
  intro n
  induction n with
  | zero =>
    intro p h
    simp only [rfindDown] at h
    split at h
    · rename_i hc
      cases h
      simp only [Bool.and_eq_true, decide_eq_true_eq] at hc
      exact ⟨by omega, Nat.le_refl _, hc.2⟩
    · exact absurd h (by simp)
  | succ n ih =>
    intro p h
    simp only [rfindDown] at h
    split at h
    · rename_i hc
      cases h
      simp only [Bool.and_eq_true, decide_eq_true_eq] at hc
      exact ⟨hc.1, Nat.le_refl _, hc.2⟩
    · obtain ⟨h1, h2, h3⟩ := ih h
      exact ⟨h1, Nat.le_succ_of_le h2, h3⟩

theorem rfindDown_max {t sub : Text} {s : Nat} :
    ∀ {n q : Nat}, rfindDown t sub s n = some q →
      ∀ p, s ≤ p → p ≤ n → matchesAt t sub p = true → p ≤ q := by
  intro n
  induction n with
  | zero =>
    intro q h p _ hpn _
    exact le_trans hpn (Nat.zero_le _)
  | succ n ih =>
    intro q h p hsp hpn hm
    simp only [rfindDown] at h
    split at h
    · cases h; exact hpn
    · rename_i hc
      simp only [Bool.and_eq_true, decide_eq_true_eq, not_and] at hc
      rcases Nat.lt_or_ge p (n + 1) with hlt | hge
      · exact ih h p hsp (by omega) hm
      · have : p = n + 1 := by omega
        subst this
        exact absurd hm (hc hsp)

theorem rfindDown_none {t sub : Text} {s : Nat} :
    ∀ {n : Nat}, rfindDown t sub s n = none →
      ∀ p, s ≤ p → p ≤ n → matchesAt t sub p = true → False := by
  intro n
  induction n with
  | zero =>
    intro h p hsp hpn hm
    simp only [rfindDown] at h
    split at h
    · exact absurd h (by simp)
    · rename_i hc
      simp only [Bool.and_eq_true, decide_eq_true_eq, not_and] at hc
      have : p = 0 := by omega
      subst this
      exact hc (by omega) hm
  | succ n ih =>
    intro h p hsp hpn hm
    simp only [rfindDown] at h
    split at h
    · exact absurd h (by simp)
    · rename_i hc
      simp only [Bool.and_eq_true, decide_eq_true_eq, not_and] at hc
      rcases Nat.lt_or_ge p (n + 1) with hlt | hge
      · exact ih h p hsp (by omega) hm
      · have : p = n + 1 := by omega
        subst this
        exact hc hsp hm

theorem rfind_sound {t sub : Text} {s e p : Nat} (h : rfind t sub s e = some p) :
    s ≤ p ∧ p + sub.length ≤ min e t.length ∧ matchesAt t sub p = true := by
  unfold rfind at h
  split at h
  · rename_i hc
    obtain ⟨h1, h2, h3⟩ := rfindDown_sound h
    exact ⟨h1, by omega, h3⟩
  · exact absurd h (by simp)

theorem rfind_max {t sub : Text} {s e q : Nat} (h : rfind t sub s e = some q) :
    ∀ p, s ≤ p → p + sub.length ≤ min e t.length → matchesAt t sub p = true → p ≤ q := by
  unfold rfind at h
  split at h
  · rename_i hc
    intro p hsp hpe hm
    exact rfindDown_max h p hsp (by omega) hm
  · exact absurd h (by simp)

theorem rfind_none {t sub : Text} {s e : Nat} (h : rfind t sub s e = none) :
    ∀ p, s ≤ p → p + sub.length ≤ min e t.length → matchesAt t sub p = true → False := by
  unfold rfind at h
  split at h
  · rename_i hc
    intro p hsp hpe hm
    exact rfindDown_none h p hsp (by omega) hm
  · rename_i hc
    intro p hsp hpe hm
    omega

/-! ### Bounds on the window boundary -/

theorem sentenceEnd_le {t : Text} {start endW thr : Nat} :
    ∀ seps, sentenceEnd t start endW thr seps ≤ endW := by
  intro seps
  induction seps with
  | nil => exact Nat.le_refl _
  | cons sep rest ih =>
    simp only [sentenceEnd]
    split
    · rename_i p hp
      split
      · have := (rfind_sound hp).2.1
        omega
      · exact ih
    · exact ih

theorem sentenceEnd_gt {t : Text} {start endW thr : Nat} (hW : start < endW)
    (hthr : start ≤ thr) :
    ∀ seps, start < sentenceEnd t start endW thr seps := by
  intro seps
  induction seps with
  | nil => exact hW
  | cons sep rest ih =>
    simp only [sentenceEnd]
    split
    · rename_i p hp
      split
      · rename_i hpt
        omega
      · exact ih
    · exact ih

theorem sentenceEnd_cases {t : Text} {start endW thr : Nat} :
    ∀ seps, (∀ sep ∈ seps, sep.length = 2) →
      sentenceEnd t start endW thr seps = endW ∨
        thr + 2 < sentenceEnd t start endW thr seps := by
  intro seps
  induction seps with
  | nil => intro _; exact Or.inl rfl
  | cons sep rest ih =>
    intro hlen
    simp only [sentenceEnd]
    split
    · rename_i p hp
      split
      · rename_i hpt
        right
        have : sep.length = 2 := hlen sep (by simp)
        omega
      · exact ih fun x hx => hlen x (by simp [hx])
    · exact ih fun x hx => hlen x (by simp [hx])

theorem computeEnd_gt {t : Text} {csize start : Nat} (hs : start < t.length)
    (hc : 1 ≤ csize) : start < computeEnd t csize start := by
  unfold computeEnd
  have hW : start + 1 ≤ min (start + csize) t.length := by omega
  split
  · split
    · rename_i p hp
      split
      · rename_i hpt
        have := (rfind_sound hp).1
        omega
      · exact sentenceEnd_gt (by omega) (by omega) _
    · exact sentenceEnd_gt (by omega) (by omega) _
  · omega

theorem computeEnd_le {t : Text} {csize start : Nat} :
    computeEnd t csize start ≤ min (start + csize) t.length := by
  unfold computeEnd
  split
  · split
    · rename_i p hp
      split
      · have h2 := (rfind_sound hp).2.1
        have : nl2.length = 2 := rfl
        omega
      · exact le_trans (sentenceEnd_le _) (by omega)
    · exact le_trans (sentenceEnd_le _) (by omega)
  · exact Nat.le_refl _

theorem computeEnd_cases {t : Text} {csize start : Nat} :
    computeEnd t csize start = min (start + csize) t.length ∨
      start + csize / 2 + 2 < computeEnd t csize start := by
  unfold computeEnd
  split
  · split
    · rename_i p hp
      split
      · rename_i hpt
        right; omega
      · rcases sentenceEnd_cases sepsList (by decide) with h | h
        · left; exact h
        · right; omega
    · rcases sentenceEnd_cases sepsList (by decide) with h | h
      · left; exact h
      · right; omega
  · left; rfl

/-! ### Facts about the chunking loop -/

theorem advanceCursor_le (ov start e : Nat) : advanceCursor ov start e ≤ e := by
  unfold advanceCursor
  split <;> omega

theorem advanceCursor_gt {ov start e : Nat} (h : start < e) :
    start < advanceCursor ov start e := by
  unfold advanceCursor
  split <;> omega

theorem extendLast_concat (t : Text) (acc : List (Text × Nat × Nat)) (c : Text)
    (s e : Nat) :
    extendLast t (acc ++ [(c, s, e)]) = acc ++ [(t.drop s, s, t.length)] := by
  simp [extendLast, List.getLast?_concat, List.dropLast_concat]

theorem chunkLoop_total {t : Text} {cs ov : Nat} (hc : 1 ≤ cs) :
    ∀ fuel start acc, t.length - start < fuel →
      ∃ res, chunkLoop t cs ov fuel start acc = some res := by
  intro fuel
  induction fuel with
  | zero => intro start acc h; omega
  | succ fuel ih =>
    intro start acc h
    simp only [chunkLoop]
    split
    · rename_i hstart
      split
      · exact ⟨_, rfl⟩
      · split
        · exact ⟨_, rfl⟩
        · have hegt : start < computeEnd t cs start := computeEnd_gt hstart hc
          have hadv : start < advanceCursor ov start (computeEnd t cs start) :=
            advanceCursor_gt hegt
          exact ih _ _ (by omega)
    · exact ⟨_, rfl⟩

theorem chunkLoop_covers {t : Text} {cs ov : Nat} (hc : 1 ≤ cs) :
    ∀ fuel start acc res,
      chunkLoop t cs ov fuel start acc = some res →
      (∀ off, off < start → ∃ c ∈ acc, c.2.1 ≤ off ∧ off < c.2.2) →
      (∀ c ∈ acc, c.2.1 < t.length ∧ c.1 ≠ []) →
      ((∀ off, off < t.length → ∃ c ∈ res, c.2.1 ≤ off ∧ off < c.2.2) ∧
        ∀ c ∈ res, c.1 ≠ []) := by
  intro fuel
  induction fuel with
  | zero => intro start acc res h; simp [chunkLoop] at h
  | succ fuel ih =>
    intro start acc res h hcov hacc
    simp only [chunkLoop] at h
    split at h
    · rename_i hstart
      have hegt : start < computeEnd t cs start := computeEnd_gt hstart hc
      have hadvle : advanceCursor ov start (computeEnd t cs start) ≤ computeEnd t cs start :=
        advanceCursor_le _ _ _
      split at h
      · rename_i hstop
        cases h
        refine ⟨?_, ?_⟩
        · intro off hoff
          rcases Nat.lt_or_ge off start with h1 | h1
          · obtain ⟨c, hcmem, hl, hr⟩ := hcov off h1
            exact ⟨c, List.mem_append.mpr (Or.inl hcmem), hl, hr⟩
          · refine ⟨emitChunk t cs start, List.mem_append.mpr (Or.inr (by simp)), ?_, ?_⟩
            · simpa [emitChunk] using h1
            · simp only [emitChunk]
              omega
        · intro c hcmem
          rcases List.mem_append.mp hcmem with h1 | h1
          · exact (hacc c h1).2
          · simp only [List.mem_singleton] at h1
            subst h1
            simp only [emitChunk]
            exact pySlice_ne_nil hegt hstart
      · split at h
        · rename_i htail
          cases h
          simp only [emitChunk] at *
          rw [extendLast_concat] at *
          refine ⟨?_, ?_⟩
          · intro off hoff
            rcases Nat.lt_or_ge off start with h1 | h1
            · obtain ⟨c, hcmem, hl, hr⟩ := hcov off h1
              exact ⟨c, List.mem_append.mpr (Or.inl hcmem), hl, hr⟩
            · exact ⟨(t.drop start, start, t.length),
                List.mem_append.mpr (Or.inr (by simp)), h1, hoff⟩
          · intro c hcmem
            rcases List.mem_append.mp hcmem with h1 | h1
            · exact (hacc c h1).2
            · simp only [List.mem_singleton] at h1
              subst h1
              simp only [ne_eq, List.drop_eq_nil_iff]
              omega
        · refine ih _ _ _ h ?_ ?_
          · intro off hoff
            rcases Nat.lt_or_ge off start with h1 | h1
            · obtain ⟨c, hcmem, hl, hr⟩ := hcov off h1
              exact ⟨c, List.mem_append.mpr (Or.inl hcmem), hl, hr⟩
            · refine ⟨emitChunk t cs start, List.mem_append.mpr (Or.inr (by simp)), ?_, ?_⟩
              · simpa [emitChunk] using h1
              · simp only [emitChunk]
                omega
          · intro c hcmem
            rcases List.mem_append.mp hcmem with h1 | h1
            · exact hacc c h1
            · simp only [List.mem_singleton] at h1
              subst h1
              exact ⟨hstart, pySlice_ne_nil hegt hstart⟩
    · cases h
      exact ⟨fun off hoff => hcov off (by omega), fun c hcmem => (hacc c hcmem).2⟩

theorem chunkLoop_contents {t : Text} {cs ov : Nat} :
    ∀ fuel start acc res,
      chunkLoop t cs ov fuel start acc = some res →
      (∀ c ∈ acc, c.1 = pySlice t c.2.1 c.2.2) →
      ∀ c ∈ res, c.1 = pySlice t c.2.1 c.2.2 := by
  intro fuel
  induction fuel with
  | zero => intro start acc res h; simp [chunkLoop] at h
  | succ fuel ih =>
    intro start acc res h hacc
    simp only [chunkLoop] at h
    split at h
    · rename_i hstart
      split at h
      · cases h
        intro c hcmem
        rcases List.mem_append.mp hcmem with h1 | h1
        · exact hacc c h1
        · simp only [List.mem_singleton] at h1
          subst h1
          simp [emitChunk]
      · split at h
        · cases h
          simp only [emitChunk] at *
          rw [extendLast_concat] at *
          intro c hcmem
          rcases List.mem_append.mp hcmem with h1 | h1
          · exact hacc c h1
          · simp only [List.mem_singleton] at h1
            subst h1
            simp [pySlice_all]
        · refine ih _ _ _ h ?_
          intro c hcmem
          rcases List.mem_append.mp hcmem with h1 | h1
          · exact hacc c h1
          · simp only [List.mem_singleton] at h1
            subst h1
            simp [emitChunk]
    · cases h
      exact hacc

theorem chunkLoop_chain {t : Text} {cs ov : Nat} (h1 : 0 < ov) (h2 : 2 * ov ≤ cs) :
    ∀ fuel start acc res,
      chunkLoop t cs ov fuel start acc = some res →
      List.Chain' (fun a b => b.2.1 < a.2.2) acc →
      (∀ c, acc.getLast? = some c → start < c.2.2) →
      List.Chain' (fun a b => b.2.1 < a.2.2) res := by
  intro fuel
  induction fuel with
  | zero => intro start acc res h; simp [chunkLoop] at h
  | succ fuel ih =>
    intro start acc res h hchain hlast
    simp only [chunkLoop] at h
    split at h
    · rename_i hstart
      have hchain2 : List.Chain' (fun a b : Text × Nat × Nat => b.2.1 < a.2.2)
          (acc ++ [emitChunk t cs start]) := by
        rw [List.chain'_append]
        refine ⟨hchain, List.chain'_singleton _, ?_⟩
        intro x hx y hy
        simp only [List.head?_cons, Option.mem_def, Option.some.injEq] at hy
        subst hy
        simp only [emitChunk]
        exact hlast x hx
      split at h
      · cases h
        exact hchain2
      · split at h
        · cases h
          rw [show emitChunk t cs start =
              (pySlice t start (computeEnd t cs start), start, computeEnd t cs start)
            from rfl, extendLast_concat]
          rw [show emitChunk t cs start =
              (pySlice t start (computeEnd t cs start), start, computeEnd t cs start)
            from rfl] at hchain2
          rw [List.chain'_append] at hchain2 ⊢
          refine ⟨hchain2.1, List.chain'_singleton _, ?_⟩
          intro x hx y hy
          simp only [List.head?_cons, Option.mem_def, Option.some.injEq] at hy
          subst hy
          exact hchain2.2.2 x hx
            (pySlice t start (computeEnd t cs start), start, computeEnd t cs start) rfl
        · rename_i hnstop hntail
          refine ih _ _ _ h hchain2 ?_
          intro c hc
          rw [show emitChunk t cs start =
              (pySlice t start (computeEnd t cs start), start, computeEnd t cs start)
            from rfl] at hc
          rw [List.getLast?_concat] at hc
          cases hc
          simp only
          -- goal: advanceCursor ov start (computeEnd t cs start) < computeEnd t cs start
          have hegt : start < computeEnd t cs start := computeEnd_gt hstart (by omega)
          by_cases hre : computeEnd t cs start - ov ≤ start
          · exfalso
            have hadv : advanceCursor ov start (computeEnd t cs start) =
                computeEnd t cs start := by
              unfold advanceCursor
              simp [hre]
            rw [hadv] at hnstop
            rcases @computeEnd_cases t cs start with hmin | hbig
            · omega
            · omega
          · unfold advanceCursor
            rw [if_neg hre]
            omega
    · cases h
      exact hchain

/-! ### Sentence-cut characterisation -/

theorem sentenceEnd_first_qualifying {t : Text} {start endW thr : Nat} :
    ∀ seps,
      (∃ sep ∈ seps, ∃ p, start ≤ p ∧ thr < p ∧
        p + sep.length ≤ min endW t.length ∧ matchesAt t sep p = true) →
      ∃ pre sep suf, seps = pre ++ sep :: suf ∧
        (∀ s ∈ pre, ∀ p, rfind t s start endW = some p → p ≤ thr) ∧
        ∃ q, rfind t sep start endW = some q ∧ thr < q ∧
          sentenceEnd t start endW thr seps = q + sep.length := by
  intro seps
  induction seps with
  | nil => intro h; simp at h
  | cons sep0 rest ih =>
    intro hex
    cases hr : rfind t sep0 start endW with
    | some q =>
      by_cases hq : thr < q
      · refine ⟨[], sep0, rest, rfl, ?_, q, hr, hq, ?_⟩
        · intro s hs
          simp at hs
        · simp only [sentenceEnd, hr, if_pos hq]
      · have hstep : sentenceEnd t start endW thr (sep0 :: rest)
            = sentenceEnd t start endW thr rest := by
          simp only [sentenceEnd, hr, if_neg hq]
        obtain ⟨sep, hmem, p, hp1, hp2, hp3, hp4⟩ := hex
        have hex' : ∃ sep ∈ rest, ∃ p, start ≤ p ∧ thr < p ∧
            p + sep.length ≤ min endW t.length ∧ matchesAt t sep p = true := by
          rcases List.mem_cons.mp hmem with heq | hmem'
          · subst heq
            exfalso
            have := rfind_max hr p hp1 hp3 hp4
            omega
          · exact ⟨sep, hmem', p, hp1, hp2, hp3, hp4⟩
        obtain ⟨pre, sep', suf, heq, hpre, q', hq1, hq2, hq3⟩ := ih hex'
        refine ⟨sep0 :: pre, sep', suf, by rw [heq, List.cons_append], ?_, q', hq1, hq2, ?_⟩
        · intro s hs p' hp'
          rcases List.mem_cons.mp hs with h0 | h0
          · subst h0
            rw [hr] at hp'
            injection hp' with hp'
            omega
          · exact hpre s h0 p' hp'
        · rw [hstep]
          exact hq3
    | none =>
      have hstep : sentenceEnd t start endW thr (sep0 :: rest)
          = sentenceEnd t start endW thr rest := by
        simp only [sentenceEnd, hr]
      obtain ⟨sep, hmem, p, hp1, hp2, hp3, hp4⟩ := hex
      have hex' : ∃ sep ∈ rest, ∃ p, start ≤ p ∧ thr < p ∧
          p + sep.length ≤ min endW t.length ∧ matchesAt t sep p = true := by
        rcases List.mem_cons.mp hmem with heq | hmem'
        · subst heq
          exact (rfind_none hr p hp1 hp3 hp4).elim
        · exact ⟨sep, hmem', p, hp1, hp2, hp3, hp4⟩
      obtain ⟨pre, sep', suf, heq, hpre, q', hq1, hq2, hq3⟩ := ih hex'
      refine ⟨sep0 :: pre, sep', suf, by rw [heq, List.cons_append], ?_, q', hq1, hq2, ?_⟩
      · intro s hs p' hp'
        rcases List.mem_cons.mp hs with h0 | h0
        · subst h0
          rw [hr] at hp'
          exact Option.noConfusion hp'
        · exact hpre s h0 p' hp'
      · rw [hstep]
        exact hq3

/-- Helper scan for the claim-side notion of sentence cut: the largest
position `p ≤ n` with `s ≤ p` at which ANY of the four separators occurs. -/
def latestSepDown (t : Text) (s : Nat) : Nat → Option Nat
  | 0 => if s = 0 && sepsList.any (fun sep => matchesAt t sep 0) then some 0 else none
  | n + 1 =>
    if s ≤ n + 1 && sepsList.any (fun sep => matchesAt t sep (n + 1)) then some (n + 1)
    else latestSepDown t s n

/-- Follows the claim's words (not the source): the latest offset strictly
past the threshold `thr` at which any of the four sentence separators (each
of length 2) occurs entirely inside the window ending at `endW`. -/
def latestSepPos (t : Text) (endW thr : Nat) : Option Nat :=
  if 2 ≤ min endW t.length then latestSepDown t (thr + 1) (min endW t.length - 2)
  else none

/-- C1: for every non-empty input text and parameters with
`0 < overlap < maxSize`, `chunk_text` returns a chunk list whose
`[start, end)` ranges together contain every offset in `[0, len text)`,
and no emitted chunk has empty content. -/
theorem chunk_text_covers_and_nonempty (t : Text) (cs ov : Nat)
    (hne : t ≠ []) (hov : 0 < ov) (hcs : ov < cs) :
    ∃ res, chunk_text t cs ov = some res ∧
      (∀ off, off < t.length → ∃ c ∈ res, c.2.1 ≤ off ∧ off < c.2.2) ∧
      ∀ c ∈ res, c.1 ≠ [] := by
  unfold chunk_text
  split
  · rename_i h
    exact absurd (by simpa using h) hne
  · split
    · rename_i hlen
      refine ⟨[(t, 0, t.length)], rfl, ?_, ?_⟩
      · intro off hoff
        exact ⟨(t, 0, t.length), by simp, Nat.zero_le off, hoff⟩
      · intro c hc
        simp only [List.mem_singleton] at hc
        subst hc
        exact hne
    · have hc1 : 1 ≤ cs := by omega
      obtain ⟨res, hres⟩ := @chunkLoop_total t cs ov hc1 (t.length + 1) 0 [] (by omega)
      refine ⟨res, hres, ?_⟩
      exact chunkLoop_covers hc1 _ 0 [] res hres
        (fun off hoff => absurd hoff (by omega)) (by simp)

theorem chunk_text_covers_and_nonempty_witness :
    ∃ res, chunk_text ['a', 'b'] 3 1 = some res ∧
      (∀ off, off < (['a', 'b'] : Text).length → ∃ c ∈ res, c.2.1 ≤ off ∧ off < c.2.2) ∧
      ∀ c ∈ res, c.1 ≠ [] :=
  chunk_text_covers_and_nonempty ['a', 'b'] 3 1 (by decide) (by decide) (by decide)

/-- C10: every triple `(content, start, end)` emitted by `chunk_text`
satisfies `content = text[start:end]`, including the trailing-tail-extended
last chunk. -/
theorem chunk_text_content_eq_slice (t : Text) (cs ov : Nat)
    (res : List (Text × Nat × Nat)) (h : chunk_text t cs ov = some res) :
    ∀ c ∈ res, c.1 = pySlice t c.2.1 c.2.2 := by
  unfold chunk_text at h
  split at h
  · cases h
    simp
  · split at h
    · cases h
      intro c hc
      simp only [List.mem_singleton] at hc
      subst hc
      simp [pySlice]
    · exact chunkLoop_contents _ 0 [] res h (by simp)

theorem chunk_text_content_eq_slice_witness :
    (['a', 'b'] : Text) = pySlice ['a', 'b'] 0 2 :=
  chunk_text_content_eq_slice ['a', 'b'] 3 1 [(['a', 'b'], 0, 2)] rfl
    (['a', 'b'], 0, 2) (by decide)

/-- C9 (amended): `chunk_text` terminates for every input with
`maxSize ≥ 1` — the cursor strictly increases on every iteration, so with
fuel `len text + 1` the loop always reaches a result. -/
theorem chunk_text_total (t : Text) (cs ov : Nat) (hc : 1 ≤ cs) :
    ∃ res, chunk_text t cs ov = some res := by
  unfold chunk_text
  split
  · exact ⟨[], rfl⟩
  · split
    · exact ⟨_, rfl⟩
    · exact chunkLoop_total hc _ 0 [] (by omega)

theorem chunk_text_total_witness : ∃ res, chunk_text ['a'] 1 0 = some res :=
  chunk_text_total ['a'] 1 0 (by decide)

/-- The loop of `chunk_text` never finishes on `t`, `maxSize`, `overlap`:
no amount of fuel produces a result. -/
def chunkLoopDiverges (t : Text) (cs ov : Nat) : Prop :=
  ∀ fuel acc, chunkLoop t cs ov fuel 0 acc = none

theorem chunkLoop_stuck_zero_size :
    ∀ fuel acc, chunkLoop ['a'] 0 0 fuel 0 acc = none := by
  intro fuel
  induction fuel with
  | zero => intro acc; rfl
  | succ fuel ih =>
    intro acc
    have hstep : chunkLoop ['a'] 0 0 (fuel + 1) 0 acc
        = chunkLoop ['a'] 0 0 fuel 0 (acc ++ [emitChunk ['a'] 0 0]) := rfl
    rw [hstep]
    exact ih _

/-- C9 is refuted as stated: on the one-character text `"a"` with
`maxSize = 0` (and `overlap = 0`) the cursor never advances — the Python
loop runs forever, and here no amount of fuel yields a result. -/
theorem chunk_text_nontermination_cx :
    chunk_text ['a'] 0 0 = none ∧ chunkLoopDiverges ['a'] 0 0 :=
  ⟨rfl, chunkLoop_stuck_zero_size⟩

/-- C5 (amended): whenever `0 < overlap` and `2 * overlap ≤ maxSize`
(in particular at the defaults 1000/200), every pair of consecutive chunks
emitted by `chunk_text` overlaps strictly: chunk `i+1`'s start is `<`
chunk `i`'s end.  (With `overlap` above half the window the advance can be
clamped to the previous end, making the two touch without overlapping.) -/
theorem chunk_text_consecutive_overlap (t : Text) (cs ov : Nat)
    (h1 : 0 < ov) (h2 : 2 * ov ≤ cs) (res : List (Text × Nat × Nat))
    (h : chunk_text t cs ov = some res) :
    List.Chain' (fun a b => b.2.1 < a.2.2) res := by
  unfold chunk_text at h
  split at h
  · cases h
    exact List.chain'_nil
  · split at h
    · cases h
      exact List.chain'_singleton _
    · exact chunkLoop_chain h1 h2 _ 0 [] res h List.chain'_nil
        (by intro c hc; simp at hc)

theorem chunk_text_consecutive_overlap_witness :
    List.Chain' (fun a b : Text × Nat × Nat => b.2.1 < a.2.2)
      [((['a', 'a'] : Text), 0, 2), (['a', 'a'], 1, 3), (['a', 'a'], 2, 4), (['a'], 3, 4)] :=
  chunk_text_consecutive_overlap ['a', 'a', 'a', 'a'] 2 1 (by decide) (by decide) _ rfl

/-- C5 is refuted as stated: with `maxSize = 8`, `overlap = 7` (valid:
`0 < overlap < maxSize`) on `"aaaaa. aaaaaaa"`, `chunk_text` emits two
chunks where chunk 1 starts exactly at chunk 0's end (7 = 7), so consecutive
chunks do not always overlap strictly. -/
theorem chunk_text_overlap_cx :
    chunk_text ['a', 'a', 'a', 'a', 'a', '.', ' ', 'a', 'a', 'a', 'a', 'a', 'a', 'a'] 8 7 =
      some [((['a', 'a', 'a', 'a', 'a', '.', ' '] : Text), 0, 7),
            (['a', 'a', 'a', 'a', 'a', 'a', 'a'], 7, 14)] ∧
    (0 : Nat) < 7 ∧ (7 : Nat) < 8 ∧
    ¬ List.Chain' (fun a b : Text × Nat × Nat => b.2.1 < a.2.2)
        [((['a', 'a', 'a', 'a', 'a', '.', ' '] : Text), 0, 7),
         (['a', 'a', 'a', 'a', 'a', 'a', 'a'], 7, 14)] := by
  refine ⟨rfl, by decide, by decide, ?_⟩
  rw [List.chain'_pair]
  decide

/-- C6 (amended): when the window must be cut before the end of the text and
no paragraph break lies past the midpoint, the cut lands at `q + len(sep)`
where `sep` is the FIRST separator in the fixed preference order `". "`,
`".\n"`, `"! "`, `"? "` whose last occurrence lies past the midpoint — the
separator list splits as `pre ++ sep :: suf` where NO separator in `pre` has
its last occurrence past the midpoint — and `q` is that separator's last
occurrence: a qualifying cut, but not necessarily at the latest position
over all four separators together. -/
theorem computeEnd_sentence_cut (t : Text) (cs start : Nat)
    (hcut : min (start + cs) t.length < t.length)
    (hnl : ∀ p, rfind t nl2 start (min (start + cs) t.length) = some p →
      p ≤ start + cs / 2)
    (hex : ∃ sep ∈ sepsList, ∃ p, start ≤ p ∧ start + cs / 2 < p ∧
      p + sep.length ≤ min (start + cs) t.length ∧ matchesAt t sep p = true) :
    ∃ pre sep suf, sepsList = pre ++ sep :: suf ∧
      (∀ s ∈ pre, ∀ p, rfind t s start (min (start + cs) t.length) = some p →
        p ≤ start + cs / 2) ∧
      ∃ q, rfind t sep start (min (start + cs) t.length) = some q ∧
        start + cs / 2 < q ∧ computeEnd t cs start = q + sep.length := by
  have hmm : min (min (start + cs) t.length) t.length = min (start + cs) t.length :=
    Nat.min_eq_left (Nat.min_le_right _ _)
  obtain ⟨sep, hmem, p, hp1, hp2, hp3, hp4⟩ := hex
  obtain ⟨pre, sep', suf, heq, hpre, q, hq1, hq2, hq3⟩ :=
    @sentenceEnd_first_qualifying t start (min (start + cs) t.length) (start + cs / 2)
      sepsList ⟨sep, hmem, p, hp1, hp2, by rw [hmm]; exact hp3, hp4⟩
  refine ⟨pre, sep', suf, heq, hpre, q, hq1, hq2, ?_⟩
  cases hrn : rfind t nl2 start (min (start + cs) t.length) with
  | none =>
    have hce : computeEnd t cs start
        = sentenceEnd t start (min (start + cs) t.length) (start + cs / 2) sepsList := by
      unfold computeEnd
      rw [if_pos hcut]
      simp only [hrn]
    rw [hce]
    exact hq3
  | some r =>
    have hce : computeEnd t cs start
        = sentenceEnd t start (min (start + cs) t.length) (start + cs / 2) sepsList := by
      unfold computeEnd
      rw [if_pos hcut]
      simp only [hrn]
      rw [if_neg (by have := hnl r hrn; omega)]
    rw [hce]
    exact hq3

theorem computeEnd_sentence_cut_witness :
    ∃ pre sep suf, sepsList = pre ++ sep :: suf ∧
      (∀ s ∈ pre, ∀ p,
        rfind ['a', 'a', 'a', 'a', 'a', 'a', '.', ' ', '!', ' ', 'a', 'a', 'a', 'a'] s 0
          (min (0 + 10) (['a', 'a', 'a', 'a', 'a', 'a', '.', ' ', '!', ' ', 'a', 'a', 'a', 'a'] : Text).length) = some p →
        p ≤ 0 + 10 / 2) ∧
      ∃ q,
        rfind ['a', 'a', 'a', 'a', 'a', 'a', '.', ' ', '!', ' ', 'a', 'a', 'a', 'a'] sep 0
          (min (0 + 10) (['a', 'a', 'a', 'a', 'a', 'a', '.', ' ', '!', ' ', 'a', 'a', 'a', 'a'] : Text).length) = some q ∧
        0 + 10 / 2 < q ∧
        computeEnd ['a', 'a', 'a', 'a', 'a', 'a', '.', ' ', '!', ' ', 'a', 'a', 'a', 'a'] 10 0 = q + sep.length :=
  computeEnd_sentence_cut ['a', 'a', 'a', 'a', 'a', 'a', '.', ' ', '!', ' ', 'a', 'a', 'a', 'a'] 10 0
    (by decide)
    (fun p hp => by
      rw [show rfind ['a', 'a', 'a', 'a', 'a', 'a', '.', ' ', '!', ' ', 'a', 'a', 'a', 'a'] nl2 0
          (min (0 + 10) (['a', 'a', 'a', 'a', 'a', 'a', '.', ' ', '!', ' ', 'a', 'a', 'a', 'a'] : Text).length) = none
        from by decide] at hp
      exact Option.noConfusion hp)
    ⟨['.', ' '], by decide, 6, by decide, by decide, by decide, by decide⟩

/-- C6 is refuted as stated: in `"aaaaaa. ! aaaa"` with `maxSize = 10` the
second half of the first window contains no `"\n\n"`, the latest qualifying
separator occurrence over all four separators is `"! "` at offset 8 (cut
would be 10), yet `chunk_text` cuts at 8 — the last `". "` occurrence plus
2 — because `". "` comes first in the separator order. -/
theorem computeEnd_sentence_cut_cx :
    min (0 + 10) (['a', 'a', 'a', 'a', 'a', 'a', '.', ' ', '!', ' ', 'a', 'a', 'a', 'a'] : Text).length = 10 ∧
    (10 : Nat) < (['a', 'a', 'a', 'a', 'a', 'a', '.', ' ', '!', ' ', 'a', 'a', 'a', 'a'] : Text).length ∧
    rfind ['a', 'a', 'a', 'a', 'a', 'a', '.', ' ', '!', ' ', 'a', 'a', 'a', 'a'] nl2 0 10 = none ∧
    latestSepPos ['a', 'a', 'a', 'a', 'a', 'a', '.', ' ', '!', ' ', 'a', 'a', 'a', 'a'] 10 (0 + 10 / 2) = some 8 ∧
    computeEnd ['a', 'a', 'a', 'a', 'a', 'a', '.', ' ', '!', ' ', 'a', 'a', 'a', 'a'] 10 0 = 8 ∧
    (8 : Nat) ≠ 8 + 2 ∧
    chunk_text ['a', 'a', 'a', 'a', 'a', 'a', '.', ' ', '!', ' ', 'a', 'a', 'a', 'a'] 10 2 =
      some [((['a', 'a', 'a', 'a', 'a', 'a', '.', ' '] : Text), 0, 8),
            (['.', ' ', '!', ' ', 'a', 'a', 'a', 'a'], 6, 14), (['a', 'a'], 12, 14)] := by
  decide

/-! ### Markdown parsing (`markdown_parser.py`) -/

/-- Python's `\s` on ASCII: space, tab, newline, carriage return, vertical
tab, form feed. -/
def isPySpace (c : Char) : Bool :=
  c == ' ' || c == '\t' || c == '\n' || c == '\r' || c == '\x0b' || c == '\x0c'

/-- Split a text on a separator character (pieces may be empty). -/
def splitOnChar (sep : Char) : Text → List Text
  | [] => [[]]
  | c :: rest =>
    match splitOnChar sep rest with
    | [] => [[]]
    | g :: gs => if c == sep then [] :: g :: gs else (c :: g) :: gs

/-- Python `str.strip()`: whitespace removed from both ends. -/
def stripText (s : Text) : Text :=
  ((s.dropWhile isPySpace).reverse.dropWhile isPySpace).reverse

/-- Does a line match `^#\s+(.+)$`?  (A `#`, at least one whitespace
character, and at least one further character.) -/
def isH1Line (line : Text) : Bool :=
  match line with
  | '#' :: c :: rest => isPySpace c && !rest.isEmpty
  | _ => false

/-- The stripped capture group of `^#\s+(.+)$` on a matching line. -/
def h1Title (line : Text) : Text :=
  stripText ((line.drop 1).dropWhile isPySpace)

/-- `extract_title` from `markdown_parser.py`: first H1 heading, else first
non-blank line truncated to 100 characters, else `"Untitled"`. -/
def extract_title (content : Text) : Text :=
  match (splitOnChar '\n' content).find? isH1Line with
  | some line => h1Title line
  | none =>
    match (splitOnChar '\n' content).find? (fun l => !(stripText l).isEmpty) with
    | some line => (stripText line).take 100
    | none => ['U', 'n', 't', 'i', 't', 'l', 'e', 'd']

/-- Try to match `!\[([^\]]*)\]\(([^)\s]+)(?:\s+"[^"]*")?\)` at the head of
the text; on success return the (alt, path) groups and the rest after the
match. -/
def scanLink (cs : Text) : Option ((Text × Text) × Text) :=
  match cs with
  | '!' :: '[' :: r0 =>
    match r0.drop (r0.takeWhile (fun c => c != ']')).length with
    | ']' :: '(' :: r2 =>
      if (r2.takeWhile (fun c => !(c == ')') && !isPySpace c)).isEmpty then none
      else
        match r2.drop (r2.takeWhile (fun c => !(c == ')') && !isPySpace c)).length with
        | ')' :: r4 =>
          some ((r0.takeWhile (fun c => c != ']'),
                 r2.takeWhile (fun c => !(c == ')') && !isPySpace c)), r4)
        | c :: r3 =>
          if isPySpace c then
            match (c :: r3).dropWhile isPySpace with
            | '"' :: r6 =>
              match r6.drop (r6.takeWhile (fun ch => ch != '"')).length with
              | '"' :: ')' :: r7 =>
                some ((r0.takeWhile (fun c => c != ']'),
                       r2.takeWhile (fun c => !(c == ')') && !isPySpace c)), r7)
              | _ => none
            | _ => none
          else none
        | [] => none
    | _ => none
  | _ => none

/-- The scan of `re.finditer` over the image pattern: at each position try a
match; on success continue after it, otherwise advance one character. -/
def scanImagesAux : Nat → Text → List (Text × Text)
  | 0, _ => []
  | _ + 1, [] => []
  | fuel + 1, c :: rest =>
    match scanLink (c :: rest) with
    | some (m, r') => m :: scanImagesAux fuel r'
    | none => scanImagesAux fuel rest

/-- All `(alt, path)` groups of the image-link pattern in the content, in
order of appearance. -/
def findImageLinks (content : Text) : List (Text × Text) :=
  scanImagesAux (content.length + 1) content

/-- Is the link an `http://`, `https://` or `data:` URL?  (The
`img_path.startswith(...)` check of the source.) -/
def isUrlLink (p : Text) : Bool :=
  (['h', 't', 't', 'p', ':', '/', '/']).isPrefixOf p ||
  (['h', 't', 't', 'p', 's', ':', '/', '/']).isPrefixOf p ||
  (['d', 'a', 't', 'a', ':']).isPrefixOf p

/-- Is the path string absolute (starts with `/`)? -/
def isAbsPath (p : Text) : Bool := p.head? == some '/'

/-- Lexical normalisation of `Path.resolve()` on an absolute path's
components (symlinks are not modelled): `..` pops, `.` and empty components
vanish, and popping at the root stays at the root. -/
def normalizeParts (parts : List Text) : List Text :=
  parts.foldl
    (fun acc comp =>
      if comp = [] ∨ comp = ['.'] then acc
      else if comp = ['.', '.'] then acc.dropLast
      else acc ++ [comp])
    []

/-- `(base / rel).resolve()` modelled on components: an absolute `rel`
replaces the base, else the components are appended, then normalised. -/
def resolveJoin (baseParts : List Text) (rel : Text) : List Text :=
  if isAbsPath rel then normalizeParts (splitOnChar '/' rel)
  else normalizeParts (baseParts ++ splitOnChar '/' rel)

/-- An image reference of `markdown_parser.py` (`absolute_path` kept as the
components of the resolved absolute path). -/
structure ImageRef where
  original_path : Text
  absolute_path : List Text
  alt_text : Text
deriving DecidableEq

/-- `extract_images(content, file_path, repo_root)` from
`markdown_parser.py`: image links from the markdown, URLs skipped, relative
paths resolved against the file's directory, and (when a root is given)
references resolving outside the repository root dropped. -/
def extract_images (content : Text) (file_path : List Text)
    (repo_root : Option (List Text)) : List ImageRef :=
  (findImageLinks content).filterMap fun al =>
    if isUrlLink al.2 then none
    else
      match repo_root with
      | some root =>
        if (normalizeParts root).isPrefixOf (resolveJoin file_path.dropLast al.2) then
          some ⟨al.2, resolveJoin file_path.dropLast al.2, al.1⟩
        else none
      | none => some ⟨al.2, resolveJoin file_path.dropLast al.2, al.1⟩

/-- Result of `parse_markdown`. -/
structure ParsedDocument where
  title : Text
  content : Text
  images : List ImageRef

/-- `parse_markdown` from `markdown_parser.py`. -/
def parse_markdown (content : Text) (file_path : List Text)
    (repo_root : Option (List Text)) : ParsedDocument :=
  ⟨extract_title content, content, extract_images content file_path repo_root⟩

/-- C4: every image reference retained by `extract_images` resolves INSIDE
the repository root (the normalised root's components are a prefix of the
reference's resolved absolute path), and no retained reference is an
`http://`, `https://` or `data:` URL — so a link such as
`../../../etc/passwd` resolving outside the root is never included. -/
theorem extract_images_sandbox (content : Text) (file_path root : List Text) :
    ∀ ref ∈ extract_images content file_path (some root),
      isUrlLink ref.original_path = false ∧
      (normalizeParts root).isPrefixOf ref.absolute_path = true := by
  intro ref href
  unfold extract_images at href
  rw [List.mem_filterMap] at href
  obtain ⟨al, hmem, hal⟩ := href
  by_cases hurl : isUrlLink al.2
  · rw [if_pos hurl] at hal
    exact absurd hal (by simp)
  · rw [if_neg hurl] at hal
    simp only at hal
    by_cases hpre : (normalizeParts root).isPrefixOf (resolveJoin file_path.dropLast al.2)
    · rw [if_pos hpre] at hal
      injection hal with hal
      subst hal
      exact ⟨by simpa using hurl, hpre⟩
    · rw [if_neg hpre] at hal
      exact absurd hal (by simp)

theorem extract_images_sandbox_witness :
    isUrlLink (ImageRef.mk ['a', '.', 'p', 'n', 'g'] [['r'], ['a', '.', 'p', 'n', 'g']]
      ['x']).original_path = false ∧
    (normalizeParts [['r']]).isPrefixOf (ImageRef.mk ['a', '.', 'p', 'n', 'g']
      [['r'], ['a', '.', 'p', 'n', 'g']] ['x']).absolute_path = true :=
  extract_images_sandbox ['!', '[', 'x', ']', '(', 'a', '.', 'p', 'n', 'g', ')']
    [['r'], ['d', '.', 'm', 'd']] [['r']]
    (ImageRef.mk ['a', '.', 'p', 'n', 'g'] [['r'], ['a', '.', 'p', 'n', 'g']] ['x'])
    (by decide)

/-! ### The document store (`db.py`) and vector state -/

/-- A row of the `documents` table (timestamps as rationals). -/
structure DocumentRecord where
  id : Nat
  repo : Text
  path : Text
  title : Text
  content : Text
  content_hash : Text
  last_modified : ℚ
  indexed_at : ℚ
deriving DecidableEq

/-- A row of the `chunks` table. -/
structure ChunkRecord where
  id : Nat
  document_id : Nat
  chunk_index : Nat
  content : Text
  start_char : Nat
  end_char : Nat
deriving DecidableEq

/-- A row of the `images` table. -/
structure ImageRecord where
  id : Nat
  document_id : Nat
  original_path : Text
  absolute_path : Text
  alt_text : Text
deriving DecidableEq

/-- The relational store: the three tables in row order plus the
`AUTOINCREMENT` counters. -/
structure DBState where
  documents : List DocumentRecord
  chunks : List ChunkRecord
  images : List ImageRecord
  next_doc_id : Nat
  next_chunk_id : Nat
  next_image_id : Nat
deriving DecidableEq

/-- `Database.get_content_hash(path)`. -/
def get_content_hash (st : DBState) (path : Text) : Option Text :=
  (st.documents.find? (fun d => d.path == path)).map (fun d => d.content_hash)

/-- `Database.get_document(doc_id)`. -/
def get_document (st : DBState) (doc_id : Nat) : Option DocumentRecord :=
  st.documents.find? (fun d => d.id == doc_id)

/-- `Database.get_chunk(chunk_id)`. -/
def get_chunk (st : DBState) (chunk_id : Nat) : Option ChunkRecord :=
  st.chunks.find? (fun c => c.id == chunk_id)

/-- `Database.get_chunks(document_id)` (`ORDER BY chunk_index`). -/
def get_chunks (st : DBState) (document_id : Nat) : List ChunkRecord :=
  (st.chunks.filter (fun c => c.document_id == document_id)).mergeSort
    (fun a b => a.chunk_index ≤ b.chunk_index)

/-- `Database.upsert_document(repo, path, title, content, last_modified)`:
insert-or-update keyed by the unique `path`; `hash` is the content digest
function and `now` the indexing timestamp.  Returns the stable row id. -/
def upsert_document (hash : Text → Text) (now : ℚ) (st : DBState)
    (repo path title content : Text) (last_modified : ℚ) : Nat × DBState :=
  match st.documents.find? (fun d => d.path == path) with
  | some d =>
    (d.id,
      { st with
        documents := st.documents.map (fun x =>
          if x.path == path then
            { x with
              repo := repo, title := title, content := content,
              content_hash := hash content, last_modified := last_modified,
              indexed_at := now }
          else x) })
  | none =>
    (st.next_doc_id,
      { st with
        documents := st.documents ++
          [⟨st.next_doc_id, repo, path, title, content, hash content,
            last_modified, now⟩],
        next_doc_id := st.next_doc_id + 1 })

/-- The insert loop of `Database.insert_chunks`: one `INSERT ... RETURNING id`
per row, on a state whose prior rows for the document are already deleted. -/
def insertChunksGo (document_id : Nat) :
    DBState → List (Nat × Text × Nat × Nat) → List Nat × DBState
  | st, [] => ([], st)
  | st, (chunk_index, content, start_char, end_char) :: rest =>
    let next :=
      insertChunksGo document_id
        { st with
          chunks := st.chunks ++
            [⟨st.next_chunk_id, document_id, chunk_index, content, start_char,
              end_char⟩],
          next_chunk_id := st.next_chunk_id + 1 }
        rest
    (st.next_chunk_id :: next.1, next.2)

/-- `Database.insert_chunks(document_id, chunks)`: delete the document's
existing chunk rows, then insert the new ordered set; returns the new ids. -/
def insert_chunks (st : DBState) (document_id : Nat)
    (chunks : List (Nat × Text × Nat × Nat)) : List Nat × DBState :=
  insertChunksGo document_id
    { st with chunks := st.chunks.filter (fun c => !(c.document_id == document_id)) }
    chunks

/-- The insert loop of `Database.insert_images`. -/
def insertImagesGo (document_id : Nat) :
    DBState → List (Text × Text × Text) → DBState
  | st, [] => st
  | st, (original_path, absolute_path, alt_text) :: rest =>
    insertImagesGo document_id
      { st with
        images := st.images ++
          [⟨st.next_image_id, document_id, original_path, absolute_path, alt_text⟩],
        next_image_id := st.next_image_id + 1 }
      rest

/-- `Database.insert_images(document_id, images)`: delete the document's
existing image rows, then insert the new set. -/
def insert_images (st : DBState) (document_id : Nat)
    (images : List (Text × Text × Text)) : DBState :=
  insertImagesGo document_id
    { st with images := st.images.filter (fun i => !(i.document_id == document_id)) }
    images

/-- `delete_vectors(ids)` of the vector backend: remove entries whose chunk
id is listed; vectors are rationals (floats are not compared arithmetically
anywhere in the pipeline). -/
def delete_vectors (vst : List (Nat × List ℚ)) (ids : List Nat) : List (Nat × List ℚ) :=
  vst.filter (fun p => !(ids.contains p.1))

/-- `add_vectors(ids, vectors)`: `INSERT OR REPLACE` of one vector per id. -/
def add_vectors (vst : List (Nat × List ℚ)) (ids : List Nat)
    (vectors : List (List ℚ)) : List (Nat × List ℚ) :=
  (ids.zip vectors).foldl
    (fun acc iv => acc.filter (fun p => !(p.1 == iv.1)) ++ [iv]) vst

/-- `str(path)` of an absolute path given as components. -/
def renderAbs (parts : List Text) : Text := '/' :: List.intercalate ['/'] parts

/-! ### The indexing pipeline (`indexer.py`) -/

/-- `_index_file` from `indexer.py`, for a successfully read file: the
content digest function `hash`, the embedding function `encode`, the
configuration and timestamps, and the file's raw content are explicit
parameters; returns the indexed-or-skipped flag and the two stores (`none`
only when the chunker's fuel runs out, i.e. `chunk_size = 0`). -/
def indexFile (hash : Text → Text) (encode : Text → List ℚ)
    (chunk_size chunk_overlap : Nat) (now last_modified : ℚ)
    (repo path : Text) (file_path repo_root : List Text)
    (raw_content : Text) (db : DBState) (vst : List (Nat × List ℚ)) :
    Option (Bool × DBState × List (Nat × List ℚ)) :=
  if get_content_hash db path = some (hash raw_content) then some (false, db, vst)
  else
    let parsed := parse_markdown raw_content file_path (some repo_root)
    let up := upsert_document hash now db repo path parsed.title parsed.content
      last_modified
    let old_chunks := get_chunks up.2 up.1
    let vst1 := if old_chunks.isEmpty then vst
      else delete_vectors vst (old_chunks.map (fun c => c.id))
    match chunk_text parsed.content chunk_size chunk_overlap with
    | none => none
    | some text_chunks =>
      let chunk_data := text_chunks.enum.map (fun ic => (ic.1, ic.2.1, ic.2.2.1, ic.2.2.2))
      let ins := insert_chunks up.2 up.1 chunk_data
      let vst2 := if ins.1.isEmpty then vst1
        else add_vectors vst1 ins.1 ((chunk_data.map (fun cd => cd.2.1)).map encode)
      let image_data := parsed.images.map (fun img =>
        (img.original_path, renderAbs img.absolute_path, img.alt_text))
      some (true, insert_images ins.2 up.1 image_data, vst2)

/-- C2: re-indexing a file whose content hash equals the stored hash for its
path is a no-op: `_index_file` returns `false` and both the document store
and the vector index are returned unchanged — no upsert, no chunk
replacement, no vector writes — so a second pass over unchanged files leaves
both stores as they were. -/
theorem indexFile_unchanged_noop (hash : Text → Text) (encode : Text → List ℚ)
    (chunk_size chunk_overlap : Nat) (now last_modified : ℚ)
    (repo path : Text) (file_path repo_root : List Text)
    (raw_content : Text) (db : DBState) (vst : List (Nat × List ℚ))
    (h : get_content_hash db path = some (hash raw_content)) :
    indexFile hash encode chunk_size chunk_overlap now last_modified repo path
      file_path repo_root raw_content db vst = some (false, db, vst) := by
  unfold indexFile
  rw [if_pos h]

theorem indexFile_unchanged_noop_witness :
    indexFile (fun c => c) (fun _ => []) 5 1 0 0 ['r'] ['p'] [['r'], ['f']] [['r']]
      ['x']
      (DBState.mk [DocumentRecord.mk 1 ['r'] ['p'] [] ['x'] ['x'] 0 0] [] [] 2 1 1)
      [] =
    some (false, DBState.mk [DocumentRecord.mk 1 ['r'] ['p'] [] ['x'] ['x'] 0 0] [] [] 2 1 1,
      []) :=
  indexFile_unchanged_noop (fun c => c) (fun _ => []) 5 1 0 0 ['r'] ['p']
    [['r'], ['f']] [['r']] ['x']
    (DBState.mk [DocumentRecord.mk 1 ['r'] ['p'] [] ['x'] ['x'] 0 0] [] [] 2 1 1)
    [] rfl

/-! ### The search engine (`search.py`) -/

/-- A result of `semantic_search`. -/
structure SearchResult where
  chunk_id : Nat
  document_id : Nat
  document_path : Text
  document_title : Text
  repo : Text
  chunk_content : Text
  chunk_index : Nat
  distance : ℚ
deriving DecidableEq

/-- The hit loop of `semantic_search`: for each `(chunk_id, distance)` from
the backend, skip it when the distance exceeds the threshold or the chunk or
its document no longer exists, else hydrate a result. -/
def searchHydrate (db : DBState) (threshold : ℚ) :
    List (Nat × ℚ) → List SearchResult
  | [] => []
  | (chunk_id, distance) :: rest =>
    if threshold < distance then searchHydrate db threshold rest
    else
      match get_chunk db chunk_id with
      | none => searchHydrate db threshold rest
      | some chunk =>
        match get_document db chunk.document_id with
        | none => searchHydrate db threshold rest
        | some doc =>
          ⟨chunk_id, doc.id, doc.path, doc.title, doc.repo, chunk.content,
            chunk.chunk_index, distance⟩ :: searchHydrate db threshold rest

/-- The configuration dataclass of `config.py`, with exactly its fields
(paths as texts).  Note there is NO `distance_threshold` field. -/
structure Config where
  db_path : Text
  vector_backend : Text
  embedding_model : Text
  chunk_size : Nat
  chunk_overlap : Nat
  repos : List Text
deriving DecidableEq

/-- How `semantic_search` can fail: the `AttributeError` Python raises for
`config.distance_threshold`, an attribute the `Config` dataclass does not
define. -/
inductive SearchError
  | attributeError
deriving DecidableEq

/-- `semantic_search` from `search.py`: the backend's nearest-neighbour
reply `hits` (already limited to `limit` entries) is an explicit parameter.
The source sets `threshold = distance_threshold if distance_threshold is
not None else config.distance_threshold`; since `Config` has no
`distance_threshold` attribute, the `None` branch raises `AttributeError`
before any search happens, modelled as `Except.error`. -/
def semantic_search (config : Config) (db : DBState) (hits : List (Nat × ℚ))
    (distance_threshold : Option ℚ) : Except SearchError (List SearchResult) :=
  match distance_threshold with
  | some threshold => Except.ok (searchHydrate db threshold hits)
  | none => Except.error SearchError.attributeError

theorem searchHydrate_distance_mem (db : DBState) (th : ℚ) :
    ∀ hits r, r ∈ searchHydrate db th hits → ∃ x ∈ hits, r.distance = x.2 := by
  intro hits
  induction hits with
  | nil => intro r h; simp [searchHydrate] at h
  | cons hd rest ih =>
    intro r h
    obtain ⟨cid, d⟩ := hd
    simp only [searchHydrate] at h
    split at h
    · obtain ⟨x, hx, he⟩ := ih r h
      exact ⟨x, List.mem_cons_of_mem _ hx, he⟩
    · split at h
      · obtain ⟨x, hx, he⟩ := ih r h
        exact ⟨x, List.mem_cons_of_mem _ hx, he⟩
      · split at h
        · obtain ⟨x, hx, he⟩ := ih r h
          exact ⟨x, List.mem_cons_of_mem _ hx, he⟩
        · rcases List.mem_cons.mp h with heq | hmem
          · subst heq
            exact ⟨(cid, d), List.mem_cons_self _ _, rfl⟩
          · obtain ⟨x, hx, he⟩ := ih r hmem
            exact ⟨x, List.mem_cons_of_mem _ hx, he⟩

theorem searchHydrate_le_threshold (db : DBState) (th : ℚ) :
    ∀ hits r, r ∈ searchHydrate db th hits → r.distance ≤ th := by
  intro hits
  induction hits with
  | nil => intro r h; simp [searchHydrate] at h
  | cons hd rest ih =>
    intro r h
    obtain ⟨cid, d⟩ := hd
    simp only [searchHydrate] at h
    split at h
    · exact ih r h
    · rename_i hd
      split at h
      · exact ih r h
      · split at h
        · exact ih r h
        · rcases List.mem_cons.mp h with heq | hmem
          · subst heq
            simpa using le_of_not_lt hd
          · exact ih r hmem

theorem searchHydrate_pairwise (db : DBState) (th : ℚ) :
    ∀ hits, List.Pairwise (fun a b : Nat × ℚ => a.2 ≤ b.2) hits →
      List.Pairwise (fun a b : SearchResult => a.distance ≤ b.distance)
        (searchHydrate db th hits) := by
  intro hits
  induction hits with
  | nil => intro _; simp [searchHydrate]
  | cons hd rest ih =>
    intro hp
    obtain ⟨cid, d⟩ := hd
    rw [List.pairwise_cons] at hp
    simp only [searchHydrate]
    split
    · exact ih hp.2
    · split
      · exact ih hp.2
      · split
        · exact ih hp.2
        · rw [List.pairwise_cons]
          refine ⟨?_, ih hp.2⟩
          intro r hr
          obtain ⟨x, hx, he⟩ := searchHydrate_distance_mem db th rest r hr
          rw [he]
          exact hp.1 x hx

/-- When the caller DOES supply a threshold, `semantic_search` succeeds and,
for a backend reply in non-decreasing distance order, returns results in
that order with no distance exceeding the supplied threshold. -/
theorem semantic_search_supplied_threshold (config : Config) (db : DBState)
    (hits : List (Nat × ℚ)) (threshold : ℚ)
    (hsorted : List.Pairwise (fun a b : Nat × ℚ => a.2 ≤ b.2) hits) :
    semantic_search config db hits (some threshold) =
      Except.ok (searchHydrate db threshold hits) ∧
    List.Pairwise (fun a b : SearchResult => a.distance ≤ b.distance)
      (searchHydrate db threshold hits) ∧
    ∀ r ∈ searchHydrate db threshold hits, r.distance ≤ threshold := by
  refine ⟨rfl, searchHydrate_pairwise db _ hits hsorted, ?_⟩
  intro r hr
  exact searchHydrate_le_threshold db _ hits r hr

/-- C3's default-threshold case is a code bug: `search.py` documents that
the threshold "defaults to config value" and the spec lists a configured
default distance threshold, but `Config` (`config.py`) defines no
`distance_threshold` field — so whenever the caller supplies no threshold
(the parameter's default, used e.g. by the protocol tool layer),
`config.distance_threshold` raises `AttributeError` and no results are
produced at all, for every configuration, store and backend reply. -/
theorem semantic_search_missing_default_threshold :
    ∀ (config : Config) (db : DBState) (hits : List (Nat × ℚ)),
      semantic_search config db hits none =
        Except.error SearchError.attributeError :=
  fun _ _ _ => rfl

/-! ### The vector backend factory (`vector/__init__.py`) -/

/-- The two backend strategies. -/
inductive VectorBackendKind
  | vec
  | vss
deriving DecidableEq

/-- How the factory fails: an uncaught `ImportError` (no backend runtime
available) or the `ValueError` raised for an unknown backend name. -/
inductive BackendFailure
  | importError
  | valueError (backend_type : Text)
deriving DecidableEq

/-- ASCII lower-casing of one character (`str.lower()` on the names used). -/
def lowerChar (c : Char) : Char :=
  if 'A' ≤ c ∧ c ≤ 'Z' then Char.ofNat (c.toNat + 32) else c

/-- `str.lower()` on an ASCII name. -/
def lowerText (s : Text) : Text := s.map lowerChar

/-- `get_vector_backend` from `vector/__init__.py`: the availability of each
backend's runtime (whether its import raises `ImportError`) is an explicit
flag.  The configured backend is tried first; on `ImportError` the alternate
is constructed, whose own `ImportError` propagates; an unknown name raises
`ValueError`. -/
def get_vector_backend (vector_backend : Text) (vec_available vss_available : Bool) :
    Except BackendFailure VectorBackendKind :=
  if lowerText vector_backend = ['v', 'e', 'c'] then
    if vec_available then Except.ok VectorBackendKind.vec
    else if vss_available then Except.ok VectorBackendKind.vss
    else Except.error BackendFailure.importError
  else if lowerText vector_backend = ['v', 's', 's'] then
    if vss_available then Except.ok VectorBackendKind.vss
    else if vec_available then Except.ok VectorBackendKind.vec
    else Except.error BackendFailure.importError
  else Except.error (BackendFailure.valueError (lowerText vector_backend))

/-- C7 (amended): for the two KNOWN backend names (case-insensitively `vec`
or `vss`) the factory returns the preferred backend when available, falls
back to the alternate when not, and fails with `ImportError` only when both
are unavailable; an UNKNOWN backend name always fails with `ValueError`,
whatever is available — there is no fallback for unknown names. -/
theorem get_vector_backend_spec (vector_backend : Text)
    (vec_available vss_available : Bool) :
    (lowerText vector_backend = ['v', 'e', 'c'] →
      get_vector_backend vector_backend vec_available vss_available =
        if vec_available then Except.ok VectorBackendKind.vec
        else if vss_available then Except.ok VectorBackendKind.vss
        else Except.error BackendFailure.importError) ∧
    (lowerText vector_backend = ['v', 's', 's'] →
      get_vector_backend vector_backend vec_available vss_available =
        if vss_available then Except.ok VectorBackendKind.vss
        else if vec_available then Except.ok VectorBackendKind.vec
        else Except.error BackendFailure.importError) ∧
    (lowerText vector_backend ≠ ['v', 'e', 'c'] →
      lowerText vector_backend ≠ ['v', 's', 's'] →
      get_vector_backend vector_backend vec_available vss_available =
        Except.error (BackendFailure.valueError (lowerText vector_backend))) := by
  refine ⟨?_, ?_, ?_⟩
  · intro h
    unfold get_vector_backend
    rw [if_pos h]
  · intro h
    unfold get_vector_backend
    rw [if_neg (by rw [h]; decide), if_pos h]
  · intro h1 h2
    unfold get_vector_backend
    rw [if_neg h1, if_neg h2]

theorem get_vector_backend_spec_witness :
    get_vector_backend ['V', 'E', 'C'] false true = Except.ok VectorBackendKind.vss :=
  (get_vector_backend_spec ['V', 'E', 'C'] false true).1 (by decide)

/-- C7 is refuted as stated: for the unknown backend name `"foo"` with BOTH
backends available, the factory does not fall back to either backend — it
fails with `ValueError`. -/
theorem get_vector_backend_unknown_cx :
    get_vector_backend ['f', 'o', 'o'] true true =
      Except.error (BackendFailure.valueError ['f', 'o', 'o']) ∧
    get_vector_backend ['f', 'o', 'o'] true true ≠ Except.ok VectorBackendKind.vec ∧
    get_vector_backend ['f', 'o', 'o'] true true ≠ Except.ok VectorBackendKind.vss :=
  ⟨rfl, fun h => Except.noConfusion h, fun h => Except.noConfusion h⟩

/-! ### Transaction traces of the multi-row replace operations (`db.py`)

`insert_chunks` / `insert_images` issue one `DELETE`, then one `INSERT` per
row, then a single `commit()`.  With sqlite's implicit transaction, changes
become visible only at the commit; a failure before it rolls the pending
changes back.  The trace semantics below makes that boundary explicit. -/

/-- One SQL statement executed by the replace operations. -/
inductive SqlOp
  | delChunks (document_id : Nat)
  | insChunk (document_id chunk_index : Nat) (content : Text)
      (start_char end_char : Nat)
  | delImages (document_id : Nat)
  | insImage (document_id : Nat) (original_path absolute_path alt_text : Text)
  | commitTxn
deriving DecidableEq

/-- Row-level effect of one statement on the pending state. -/
def applySql (st : DBState) : SqlOp → DBState
  | .delChunks d =>
    { st with chunks := st.chunks.filter (fun c => !(c.document_id == d)) }
  | .insChunk d i c s e =>
    { st with
      chunks := st.chunks ++ [⟨st.next_chunk_id, d, i, c, s, e⟩],
      next_chunk_id := st.next_chunk_id + 1 }
  | .delImages d =>
    { st with images := st.images.filter (fun i => !(i.document_id == d)) }
  | .insImage d o a al =>
    { st with
      images := st.images ++ [⟨st.next_image_id, d, o, a, al⟩],
      next_image_id := st.next_image_id + 1 }
  | .commitTxn => st

/-- Execute statements against a committed state and a pending copy: only a
commit publishes the pending changes; pending changes left over at the end
are rolled back. -/
def runOps : DBState → DBState → List SqlOp → DBState
  | committed, _, [] => committed
  | _, pending, SqlOp.commitTxn :: rest => runOps pending pending rest
  | committed, pending, op :: rest => runOps committed (applySql pending op) rest

/-- The statement sequence of `Database.insert_chunks`: delete the
document's rows, insert each new row, commit once at the end. -/
def insertChunksOps (document_id : Nat)
    (chunks : List (Nat × Text × Nat × Nat)) : List SqlOp :=
  SqlOp.delChunks document_id ::
    (chunks.map (fun r => SqlOp.insChunk document_id r.1 r.2.1 r.2.2.1 r.2.2.2) ++
      [SqlOp.commitTxn])

/-- The statement sequence of `Database.insert_images`. -/
def insertImagesOps (document_id : Nat)
    (images : List (Text × Text × Text)) : List SqlOp :=
  SqlOp.delImages document_id ::
    (images.map (fun r => SqlOp.insImage document_id r.1 r.2.1 r.2.2) ++
      [SqlOp.commitTxn])

/-- The state visible after the first `steps` statements of a transaction
run against `committed` (a failure after `steps` statements aborts there). -/
def runTxn (committed : DBState) (ops : List SqlOp) (steps : Nat) : DBState :=
  runOps committed committed (ops.take steps)

/-- The rows `insert_chunks` creates for the new ordered set, with ids
assigned from `base` upward. -/
def expectedChunks (document_id base : Nat) :
    List (Nat × Text × Nat × Nat) → List ChunkRecord
  | [] => []
  | (chunk_index, content, start_char, end_char) :: rest =>
    ⟨base, document_id, chunk_index, content, start_char, end_char⟩ ::
      expectedChunks document_id (base + 1) rest

/-- The rows `insert_images` creates, with ids assigned from `base` upward. -/
def expectedImages (document_id base : Nat) :
    List (Text × Text × Text) → List ImageRecord
  | [] => []
  | (original_path, absolute_path, alt_text) :: rest =>
    ⟨base, document_id, original_path, absolute_path, alt_text⟩ ::
      expectedImages document_id (base + 1) rest

theorem runOps_no_commit :
    ∀ (ops : List SqlOp) (committed pending : DBState),
      SqlOp.commitTxn ∉ ops → runOps committed pending ops = committed := by
  intro ops
  induction ops with
  | nil => intro committed pending _; rfl
  | cons op rest ih =>
    intro committed pending hmem
    cases op with
    | commitTxn => exact absurd (List.mem_cons_self _ _) hmem
    | delChunks d =>
      exact ih committed _ (fun h => hmem (List.mem_cons_of_mem _ h))
    | insChunk d i c s e =>
      exact ih committed _ (fun h => hmem (List.mem_cons_of_mem _ h))
    | delImages d =>
      exact ih committed _ (fun h => hmem (List.mem_cons_of_mem _ h))
    | insImage d o a al =>
      exact ih committed _ (fun h => hmem (List.mem_cons_of_mem _ h))

theorem runOps_insertChunksBody (document_id : Nat) :
    ∀ (rows : List (Nat × Text × Nat × Nat)) (committed st0 : DBState),
      runOps committed st0
        (rows.map (fun r => SqlOp.insChunk document_id r.1 r.2.1 r.2.2.1 r.2.2.2) ++
          [SqlOp.commitTxn]) =
      (insertChunksGo document_id st0 rows).2 := by
  intro rows
  induction rows with
  | nil => intro committed st0; rfl
  | cons r rest ih =>
    intro committed st0
    obtain ⟨i, c, s, e⟩ := r
    exact ih committed _

theorem runOps_insertImagesBody (document_id : Nat) :
    ∀ (rows : List (Text × Text × Text)) (committed st0 : DBState),
      runOps committed st0
        (rows.map (fun r => SqlOp.insImage document_id r.1 r.2.1 r.2.2) ++
          [SqlOp.commitTxn]) =
      insertImagesGo document_id st0 rows := by
  intro rows
  induction rows with
  | nil => intro committed st0; rfl
  | cons r rest ih =>
    intro committed st0
    obtain ⟨o, a, al⟩ := r
    exact ih committed _

theorem insertChunksGo_chunks (document_id : Nat) :
    ∀ (rows : List (Nat × Text × Nat × Nat)) (st : DBState),
      (insertChunksGo document_id st rows).2.chunks =
        st.chunks ++ expectedChunks document_id st.next_chunk_id rows := by
  intro rows
  induction rows with
  | nil => intro st; simp [insertChunksGo, expectedChunks]
  | cons r rest ih =>
    intro st
    obtain ⟨i, c, s, e⟩ := r
    simp only [insertChunksGo, expectedChunks]
    rw [ih]
    simp

theorem insertImagesGo_images (document_id : Nat) :
    ∀ (rows : List (Text × Text × Text)) (st : DBState),
      (insertImagesGo document_id st rows).images =
        st.images ++ expectedImages document_id st.next_image_id rows := by
  intro rows
  induction rows with
  | nil => intro st; simp [insertImagesGo, expectedImages]
  | cons r rest ih =>
    intro st
    obtain ⟨o, a, al⟩ := r
    simp only [insertImagesGo, expectedImages]
    rw [ih]
    simp

theorem insertChunksOps_take_no_commit {document_id : Nat}
    {rows : List (Nat × Text × Nat × Nat)} {steps : Nat}
    (h : steps < (insertChunksOps document_id rows).length) :
    SqlOp.commitTxn ∉ (insertChunksOps document_id rows).take steps := by
  intro hmem
  cases steps with
  | zero => simp at hmem
  | succ k =>
    have hlen : (insertChunksOps document_id rows).length = rows.length + 2 := by
      simp [insertChunksOps]
    rw [insertChunksOps, List.take_succ_cons] at hmem
    rcases List.mem_cons.mp hmem with h0 | h1
    · exact SqlOp.noConfusion h0
    · rw [List.take_append_of_le_length (by simp; omega)] at h1
      obtain ⟨r, _, hr⟩ := List.mem_map.mp (List.take_subset _ _ h1)
      exact SqlOp.noConfusion hr

theorem insertImagesOps_take_no_commit {document_id : Nat}
    {rows : List (Text × Text × Text)} {steps : Nat}
    (h : steps < (insertImagesOps document_id rows).length) :
    SqlOp.commitTxn ∉ (insertImagesOps document_id rows).take steps := by
  intro hmem
  cases steps with
  | zero => simp at hmem
  | succ k =>
    have hlen : (insertImagesOps document_id rows).length = rows.length + 2 := by
      simp [insertImagesOps]
    rw [insertImagesOps, List.take_succ_cons] at hmem
    rcases List.mem_cons.mp hmem with h0 | h1
    · exact SqlOp.noConfusion h0
    · rw [List.take_append_of_le_length (by simp; omega)] at h1
      obtain ⟨r, _, hr⟩ := List.mem_map.mp (List.take_subset _ _ h1)
      exact SqlOp.noConfusion hr

/-- C8: the multi-row replace operations are atomic per document.  For both
`insert_chunks` (replaceChunks) and `insert_images` (replaceImages): a run
that fails after any proper prefix of the statement trace (the commit is the
last statement) leaves the committed state unchanged; the full trace yields
exactly the state of the operation; and in that state the document's old row
set is entirely gone while the new ordered row set is entirely present, all
other documents' rows untouched. -/
theorem replace_rows_atomic (st : DBState) (document_id : Nat)
    (chunks : List (Nat × Text × Nat × Nat)) (images : List (Text × Text × Text)) :
    (∀ steps, steps < (insertChunksOps document_id chunks).length →
      runTxn st (insertChunksOps document_id chunks) steps = st) ∧
    runTxn st (insertChunksOps document_id chunks)
        (insertChunksOps document_id chunks).length =
      (insert_chunks st document_id chunks).2 ∧
    (insert_chunks st document_id chunks).2.chunks =
      st.chunks.filter (fun c => !(c.document_id == document_id)) ++
        expectedChunks document_id st.next_chunk_id chunks ∧
    (∀ steps, steps < (insertImagesOps document_id images).length →
      runTxn st (insertImagesOps document_id images) steps = st) ∧
    runTxn st (insertImagesOps document_id images)
        (insertImagesOps document_id images).length =
      insert_images st document_id images ∧
    (insert_images st document_id images).images =
      st.images.filter (fun i => !(i.document_id == document_id)) ++
        expectedImages document_id st.next_image_id images := by
  refine ⟨?_, ?_, ?_, ?_, ?_, ?_⟩
  · intro steps hs
    exact runOps_no_commit _ _ _ (insertChunksOps_take_no_commit hs)
  · rw [runTxn, List.take_length, insertChunksOps]
    exact runOps_insertChunksBody document_id chunks st _
  · rw [insert_chunks, insertChunksGo_chunks]
  · intro steps hs
    exact runOps_no_commit _ _ _ (insertImagesOps_take_no_commit hs)
  · rw [runTxn, List.take_length, insertImagesOps]
    exact runOps_insertImagesBody document_id images st _
  · rw [insert_images, insertImagesGo_images]

theorem replace_rows_atomic_witness :
    runTxn (DBState.mk [] [ChunkRecord.mk 5 1 0 ['o'] 0 1] [] 1 6 1)
      (insertChunksOps 1 [(0, ['x'], 0, 1)]) 1 =
      DBState.mk [] [ChunkRecord.mk 5 1 0 ['o'] 0 1] [] 1 6 1 ∧
    (insert_chunks (DBState.mk [] [ChunkRecord.mk 5 1 0 ['o'] 0 1] [] 1 6 1) 1
        [(0, ['x'], 0, 1)]).2.chunks =
      (DBState.mk [] [ChunkRecord.mk 5 1 0 ['o'] 0 1] [] 1 6 1 : DBState).chunks.filter
          (fun c => !(c.document_id == 1)) ++
        expectedChunks 1 6 [(0, ['x'], 0, 1)] :=
  ⟨(replace_rows_atomic (DBState.mk [] [ChunkRecord.mk 5 1 0 ['o'] 0 1] [] 1 6 1) 1
      [(0, ['x'], 0, 1)] []).1 1 (by decide),
   (replace_rows_atomic (DBState.mk [] [ChunkRecord.mk 5 1 0 ['o'] 0 1] [] 1 6 1) 1
      [(0, ['x'], 0, 1)] []).2.2.1⟩
